import Mathlib

/-!
Verification of the pseudo-random number generator declared in
src/modules/juce_core/maths/juce_Random.h (class juce::Random).

Only the class declaration is present in the repository sources; apart from
the inline body of getSeed, the method bodies live in a juce_Random.cpp that
is not part of the source tree.  Every method whose body is missing is
therefore modelled from the specification text (its doc comment says so),
while getSeed is translated from the header itself.

Machine integers are embedded as Nat bit patterns with explicit modular
reduction: the int64 seed field is stored as its unsigned 64-bit pattern,
int32 and int64 return values are obtained from patterns via explicit
two's-complement reinterpretation.
-/

namespace Juce

/-- Unsigned 64-bit bit pattern of an int64 value. -/
def toU64 (v : Int) : Nat := (v % (2 ^ 64 : Nat)).toNat

/-- Unsigned 32-bit bit pattern of an int32 value. -/
def toU32 (v : Int) : Nat := (v % (2 ^ 32 : Nat)).toNat

/-- Reinterpret a 32-bit pattern as a signed (two's-complement) int32. -/
def toSigned32 (n : Nat) : Int :=
  if n % 2 ^ 32 < 2 ^ 31 then (n % 2 ^ 32 : Nat) else (n % 2 ^ 32 : Nat) - 2 ^ 32

/-- Reinterpret a 64-bit pattern as a signed (two's-complement) int64. -/
def toSigned64 (n : Nat) : Int :=
  if n % 2 ^ 64 < 2 ^ 63 then (n % 2 ^ 64 : Nat) else (n % 2 ^ 64 : Nat) - 2 ^ 64

/-- Modelled from the spec: the core linear-congruential state transition
of juce::Random (body of juce_Random.cpp missing from the sources),
seed = (seed * A + C) mod 2 ^ 48 with A = 0x5DEECE66D and C = 0xB. -/
def nextSeed (s : Nat) : Nat := (s * 0x5DEECE66D + 0xB) % 2 ^ 48

/-- The state of a juce::Random object: the int64 seed field (stored here as
its unsigned 64-bit pattern) and the assertion-build bookkeeping flag
isSystemRandom declared in the header.  The flag is never read by any
generation or mutation operation. -/
structure Random where
  seed : Nat
  isSystemRandom : Bool
  deriving DecidableEq, Repr

/-- The constructor Random (int64 seedValue): sets the seed field. -/
def construct (seedValue : Int) : Random := ⟨toU64 seedValue, false⟩

/-- Modelled from the spec: Random::nextInt (body missing from the sources).
One state transition; the return value is the top 32 bits of the
transitioned 48-bit state, reinterpreted as a signed 32-bit integer. -/
def Random.nextInt (r : Random) : Int × Random :=
  let s := nextSeed r.seed
  (toSigned32 (s / 2 ^ 16), ⟨s, r.isSystemRandom⟩)

/-- Random::setSeed (newSeed): overwrites the seed field unconditionally. -/
def Random.setSeed (newSeed : Int) (r : Random) : Random :=
  ⟨toU64 newSeed, r.isSystemRandom⟩

/-- Random::getSeed, translated from the header: returns the seed field,
declared const (no mutation). -/
def Random.getSeed (r : Random) : Int := toSigned64 r.seed

/-- Modelled from the spec: Random::combineSeed (body missing from the
sources) advances the state one normal transition step with the new value
XORed into the accumulator after the transition, so the result is sensitive
to both the prior state and the new value. -/
def Random.combineSeed (seedValue : Int) (r : Random) : Random :=
  ⟨nextSeed r.seed ^^^ toU64 seedValue, r.isSystemRandom⟩

/-- Modelled from the spec: the rejection-sampling loop of
Random::nextInt (maxValue) for a non-power-of-two bound (body missing from
the sources), at the level of raw seeds.  Each round performs one state
transition, takes the non-negative 31-bit draw n (the unsigned 32-bit draw
shifted right by one), and accepts n mod m unless
n - (n mod m) + (m - 1) would overflow the positive int32 range.  The loop
terminates with probability 1; a fuel argument bounds the modelled number
of retries, with the final round accepting unconditionally. -/
def nextIntBoundedAux (m : Nat) : Nat → Nat → Nat × Nat
  | 0, s =>
      let s' := nextSeed s
      (s' / 2 ^ 16 / 2 % m, s')
  | fuel + 1, s =>
      let s' := nextSeed s
      let n := s' / 2 ^ 16 / 2
      if n - n % m + (m - 1) ≤ 2 ^ 31 - 1 then (n % m, s')
      else nextIntBoundedAux m fuel s'

/-- Modelled from the spec: the body of Random::nextInt (maxValue) at the
level of raw seeds (body missing from the sources).  If the bound m is a
power of two the result is derived from one positive 31-bit draw (the
32-bit draw shifted right by one) by multiply-and-shift; otherwise the
rejection-sampling loop removes the modulo bias. -/
def nextIntBoundedS (m fuel s : Nat) : Nat × Nat :=
  if m &&& (m - 1) = 0 then
    let s' := nextSeed s
    (m * (s' / 2 ^ 16 / 2) / 2 ^ 31, s')
  else nextIntBoundedAux m fuel s

/-- Modelled from the spec: Random::nextInt (maxValue) (body missing from
the sources).  Precondition maxValue > 0 (asserted, not recoverable). -/
def Random.nextIntBounded (maxValue : Int) (fuel : Nat) (r : Random) : Int × Random :=
  let p := nextIntBoundedS maxValue.toNat fuel r.seed
  ((p.1 : Nat), ⟨p.2, r.isSystemRandom⟩)

/-- Modelled from the spec: Random::nextInt (Range) over [lo, hi) (body
missing from the sources): equivalent to lo + nextInt (hi - lo);
precondition hi > lo. -/
def Random.nextIntRange (lo hi : Int) (fuel : Nat) (r : Random) : Int × Random :=
  let p := r.nextIntBounded (hi - lo) fuel
  (lo + p.1, p.2)

/-- Modelled from the spec: Random::nextInt64 (body missing from the
sources): two consecutive state transitions; the first 32-bit draw is the
high word and the second the low word of the signed 64-bit result. -/
def Random.nextInt64 (r : Random) : Int × Random :=
  let s1 := nextSeed r.seed
  let s2 := nextSeed s1
  (toSigned64 (s1 / 2 ^ 16 * 2 ^ 32 + s2 / 2 ^ 16), ⟨s2, r.isSystemRandom⟩)

/-- Modelled from the spec: Random::nextBool (body missing from the
sources): the parity (low bit) of one 32-bit draw. -/
def Random.nextBool (r : Random) : Bool × Random :=
  let p := r.nextInt
  (toU32 p.1 % 2 == 1, p.2)

/-- Modelled from the spec: Random::nextFloat (body missing from the
sources): one 32-bit draw, shifted to a non-negative 24-bit (float
mantissa range) integer and divided by the 2 ^ 24 range span.  The exact
rational value of the quotient is modelled. -/
def Random.nextFloat (r : Random) : ℚ × Random :=
  let p := r.nextInt
  ((toU32 p.1 / 2 ^ 8 : Nat) / (2 ^ 24 : ℚ), p.2)

/-- Modelled from the spec: Random::nextDouble (body missing from the
sources): two 32-bit draws combined into a non-negative 53-bit (double
mantissa range) integer, divided by the 2 ^ 53 range span.  The exact
rational value of the quotient is modelled. -/
def Random.nextDouble (r : Random) : ℚ × Random :=
  let p := r.nextInt
  let q := p.2.nextInt
  (((toU32 p.1 / 2 ^ 6 * 2 ^ 27 + toU32 q.1 / 2 ^ 5 : Nat)) / (2 ^ 53 : ℚ), q.2)

/-- Write the low n bits of the pattern bits into bit positions
[start, start + n) of the natural number b, leaving all other bit
positions of b unchanged. -/
def setBitRange (b start n bits : Nat) : Nat :=
  (b / 2 ^ (start + n) * 2 ^ n + bits % 2 ^ n) * 2 ^ start + b % 2 ^ start

/-- Modelled from the spec: the chunk loop of
Random::fillBitsRandomly (BigInteger, startBit, numBits) (body missing
from the sources), at the level of raw seeds: each round consumes one
32-bit draw and overwrites the next min 32 remaining bits of the
BigInteger magnitude (modelled as a Nat) with bits of the draw. -/
def fillBitsAux (b start numBits s : Nat) : Nat × Nat :=
  if h : numBits = 0 then (b, s)
  else
    let n := min 32 numBits
    let s' := nextSeed s
    fillBitsAux (setBitRange b start n (s' / 2 ^ 16)) (start + n) (numBits - n) s'
termination_by numBits
decreasing_by omega

/-- Modelled from the spec: Random::fillBitsRandomly on a BigInteger
bit-range (body missing from the sources): fills bits
[startBit, startBit + numBits) of the magnitude with random bits, leaving
bits outside the range untouched. -/
def Random.fillBitsRandomly (arrayToChange : Nat) (startBit numBits : Nat)
    (r : Random) : Nat × Random :=
  let p := fillBitsAux arrayToChange startBit numBits r.seed
  (p.1, ⟨p.2, r.isSystemRandom⟩)

/-- One call of the public juce::Random API, with its arguments (bounded
draws also carry the fuel bounding the modelled rejection retries,
fillBits carries the BigInteger magnitude it works on). -/
inductive Op where
  | opNextInt : Op
  | opNextIntBounded : Int → Nat → Op
  | opNextIntRange : Int → Int → Nat → Op
  | opNextInt64 : Op
  | opNextFloat : Op
  | opNextDouble : Op
  | opNextBool : Op
  | opFillBits : Nat → Nat → Nat → Op
  | opSetSeed : Int → Op
  | opCombineSeed : Int → Op
  | opGetSeed : Op
  deriving DecidableEq, Repr

/-- The value returned by one API call. -/
inductive Out where
  | intVal : Int → Out
  | boolVal : Bool → Out
  | ratVal : ℚ → Out
  | natVal : Nat → Out
  | unitVal : Out
  deriving DecidableEq, Repr

/-- Execute one API call on a generator, returning its output value and
the resulting generator state. -/
def step (op : Op) (r : Random) : Out × Random :=
  match op with
  | .opNextInt => let p := r.nextInt; (.intVal p.1, p.2)
  | .opNextIntBounded maxValue fuel =>
      let p := r.nextIntBounded maxValue fuel; (.intVal p.1, p.2)
  | .opNextIntRange lo hi fuel =>
      let p := r.nextIntRange lo hi fuel; (.intVal p.1, p.2)
  | .opNextInt64 => let p := r.nextInt64; (.intVal p.1, p.2)
  | .opNextFloat => let p := r.nextFloat; (.ratVal p.1, p.2)
  | .opNextDouble => let p := r.nextDouble; (.ratVal p.1, p.2)
  | .opNextBool => let p := r.nextBool; (.boolVal p.1, p.2)
  | .opFillBits b startBit numBits =>
      let p := r.fillBitsRandomly b startBit numBits; (.natVal p.1, p.2)
  | .opSetSeed v => (.unitVal, r.setSeed v)
  | .opCombineSeed v => (.unitVal, r.combineSeed v)
  | .opGetSeed => (.intVal r.getSeed, r)

/-- Execute a sequence of API calls, collecting the output values in
order together with the final generator state. -/
def run : List Op → Random → List Out × Random
  | [], r => ([], r)
  | op :: ops, r =>
      let p := step op r
      let q := run ops p.2
      (p.1 :: q.1, q.2)

/-! ### Helper lemmas -/

lemma toU32_lt (v : Int) : toU32 v < 2 ^ 32 := by
  unfold toU32; omega

lemma toU64_lt (v : Int) : toU64 v < 2 ^ 64 := by
  unfold toU64; omega

lemma nextSeed_lt (s : Nat) : nextSeed s < 2 ^ 48 := by
  unfold nextSeed; omega

lemma toU32_toSigned32 (n : Nat) (h : n < 2 ^ 32) : toU32 (toSigned32 n) = n := by
  unfold toU32 toSigned32; split <;> omega

lemma toSigned32_bounds (n : Nat) : -(2 ^ 31) ≤ toSigned32 n ∧ toSigned32 n < 2 ^ 31 := by
  unfold toSigned32; split <;> omega

lemma toSigned32_toU32 (v : Int) (h1 : -(2 ^ 31) ≤ v) (h2 : v < 2 ^ 31) :
    toSigned32 (toU32 v) = v := by
  unfold toU32 toSigned32; split <;> omega

lemma toSigned64_inj (a b : Nat) (ha : a < 2 ^ 64) (hb : b < 2 ^ 64)
    (h : toSigned64 a = toSigned64 b) : a = b := by
  unfold toSigned64 at h; split at h <;> split at h <;> omega

/-- The LCG multiplier is invertible mod 2 ^ 48, so one transition step can
reach every 48-bit state: the witness seed is computed with the modular
inverse 0xDFE05BCB1365 of 0x5DEECE66D. -/
lemma nextSeed_surjective (t : Nat) (ht : t < 2 ^ 48) :
    ∃ s, s < 2 ^ 64 ∧ nextSeed s = t := by
  refine ⟨(t + (2 ^ 48 - 0xB)) * 0xDFE05BCB1365 % 2 ^ 48, by omega, ?_⟩
  unfold nextSeed
  have h1 : (t + (2 ^ 48 - 0xB)) * 0xDFE05BCB1365 % 2 ^ 48 * 0x5DEECE66D + 0xB
      ≡ (t + (2 ^ 48 - 0xB)) * (0xDFE05BCB1365 * 0x5DEECE66D) + 0xB [MOD 2 ^ 48] := by
    rw [← mul_assoc]
    exact ((Nat.mod_modEq _ _).mul_right _).add_right _
  have h2 : 0xDFE05BCB1365 * 0x5DEECE66D ≡ 1 [MOD 2 ^ 48] :=
    show 0xDFE05BCB1365 * 0x5DEECE66D % 2 ^ 48 = 1 % 2 ^ 48 by norm_num
  have h3 : (t + (2 ^ 48 - 0xB)) * (0xDFE05BCB1365 * 0x5DEECE66D) + 0xB
      ≡ (t + (2 ^ 48 - 0xB)) * 1 + 0xB [MOD 2 ^ 48] :=
    (h2.mul_left _).add_right _
  have h4 : (t + (2 ^ 48 - 0xB)) * 1 + 0xB = t + 2 ^ 48 := by omega
  have h5 : t + 2 ^ 48 ≡ t [MOD 2 ^ 48] := Nat.add_mod_right t (2 ^ 48)
  have h45 : (t + (2 ^ 48 - 0xB)) * 1 + 0xB ≡ t [MOD 2 ^ 48] := by rw [h4]; exact h5
  have h6 : (t + (2 ^ 48 - 0xB)) * 0xDFE05BCB1365 % 2 ^ 48 * 0x5DEECE66D + 0xB
      ≡ t [MOD 2 ^ 48] := (h1.trans h3).trans h45
  have h7 : ((t + (2 ^ 48 - 0xB)) * 0xDFE05BCB1365 % 2 ^ 48 * 0x5DEECE66D + 0xB) % 2 ^ 48
      = t % 2 ^ 48 := h6
  rw [h7, Nat.mod_eq_of_lt ht]

lemma nextIntBoundedAux_lt (m fuel s : Nat) (hm : 0 < m) :
    (nextIntBoundedAux m fuel s).1 < m := by
  induction fuel generalizing s with
  | zero => exact Nat.mod_lt _ hm
  | succ fuel ih =>
      simp only [nextIntBoundedAux]
      split
      · exact Nat.mod_lt _ hm
      · exact ih _

lemma nextIntBoundedS_lt (m fuel s : Nat) (hm : 0 < m) :
    (nextIntBoundedS m fuel s).1 < m := by
  unfold nextIntBoundedS
  split
  · have hd : nextSeed s / 2 ^ 16 / 2 < 2 ^ 31 := by
      have := nextSeed_lt s; omega
    have hlt : m * (nextSeed s / 2 ^ 16 / 2) < m * 2 ^ 31 := by
      have hm31 : (0 : Nat) < 2 ^ 31 := by norm_num
      exact Nat.mul_lt_mul_of_le_of_lt (Nat.le_refl m) hd hm
    exact (Nat.div_lt_iff_lt_mul (by norm_num)).mpr (by omega)
  · exact nextIntBoundedAux_lt m fuel s hm

lemma nextIntBounded_range (maxValue : Int) (fuel : Nat) (r : Random)
    (h : 0 < maxValue) :
    0 ≤ (r.nextIntBounded maxValue fuel).1
    ∧ (r.nextIntBounded maxValue fuel).1 < maxValue := by
  unfold Random.nextIntBounded
  dsimp only
  have hm : 0 < maxValue.toNat := by omega
  have := nextIntBoundedS_lt maxValue.toNat fuel r.seed hm
  constructor
  · exact Int.ofNat_nonneg _
  · omega

lemma setBitRange_mod (b s n bits : Nat) :
    setBitRange b s n bits % 2 ^ s = b % 2 ^ s := by
  unfold setBitRange
  rw [Nat.add_comm, Nat.add_mul_mod_self_right]
  exact Nat.mod_mod_of_dvd _ dvd_rfl

lemma setBitRange_div (b s n bits : Nat) :
    setBitRange b s n bits / 2 ^ (s + n) = b / 2 ^ (s + n) := by
  have hrw : setBitRange b s n bits
      = 2 ^ (s + n) * (b / 2 ^ (s + n)) + (bits % 2 ^ n * 2 ^ s + b % 2 ^ s) := by
    unfold setBitRange
    rw [pow_add]
    ring
  have hw : bits % 2 ^ n < 2 ^ n := Nat.mod_lt _ (Nat.two_pow_pos n)
  have hc : b % 2 ^ s < 2 ^ s := Nat.mod_lt _ (Nat.two_pow_pos s)
  have htail : bits % 2 ^ n * 2 ^ s + b % 2 ^ s < 2 ^ (s + n) := by
    have h1 : (bits % 2 ^ n + 1) * 2 ^ s ≤ 2 ^ n * 2 ^ s :=
      Nat.mul_le_mul_right _ hw
    rw [pow_add]
    calc bits % 2 ^ n * 2 ^ s + b % 2 ^ s
        < (bits % 2 ^ n + 1) * 2 ^ s := by rw [Nat.add_mul]; omega
      _ ≤ 2 ^ n * 2 ^ s := h1
      _ = 2 ^ s * 2 ^ n := Nat.mul_comm _ _
  rw [hrw, Nat.mul_add_div (Nat.two_pow_pos _), Nat.div_eq_of_lt htail, Nat.add_zero]

/-- Bit positions below a position where two numbers agree modulo that
power of two carry the same bit. -/
lemma testBit_low_eq (s i x y : Nat) (hi : i < s) (hxy : x % 2 ^ s = y % 2 ^ s) :
    x.testBit i = y.testBit i := by
  have hx := Nat.testBit_mod_two_pow x s i
  have hy := Nat.testBit_mod_two_pow y s i
  rw [hxy] at hx
  simp only [hi, decide_True, Bool.true_and] at hx hy
  rw [← hx]
  exact hy

/-- Bit positions at or above a position where two numbers agree after
division by that power of two carry the same bit. -/
lemma testBit_high_eq (m i x y : Nat) (hm : m ≤ i) (hxy : x / 2 ^ m = y / 2 ^ m) :
    x.testBit i = y.testBit i := by
  have hx : x / 2 ^ i = x / 2 ^ m / 2 ^ (i - m) := by
    rw [Nat.div_div_eq_div_mul, ← pow_add, Nat.add_sub_cancel' hm]
  have hy : y / 2 ^ i = y / 2 ^ m / 2 ^ (i - m) := by
    rw [Nat.div_div_eq_div_mul, ← pow_add, Nat.add_sub_cancel' hm]
  rw [Nat.testBit_to_div_mod, Nat.testBit_to_div_mod, hx, hy, hxy]

lemma setBitRange_testBit (b s n bits i : Nat) (h : i < s ∨ s + n ≤ i) :
    (setBitRange b s n bits).testBit i = b.testBit i := by
  rcases h with h | h
  · exact testBit_low_eq s i _ _ h (setBitRange_mod b s n bits)
  · exact testBit_high_eq (s + n) i _ _ h (setBitRange_div b s n bits)

lemma fillBitsAux_frame (b start numBits s : Nat) :
    ∀ i, i < start ∨ start + numBits ≤ i →
      ((fillBitsAux b start numBits s).1).testBit i = b.testBit i := by
  induction b, start, numBits, s using fillBitsAux.induct with
  | case1 b start s =>
      intro i _
      rw [fillBitsAux]
      simp
  | case2 b start numBits s h0 n s' ih =>
      intro i hi
      rw [fillBitsAux]
      simp only [dif_neg h0]
      have hn : n ≤ numBits := by omega
      have := ih i (by omega)
      rw [this, setBitRange_testBit b start n _ i (by omega)]

/-- The isSystemRandom bookkeeping flag never influences a call's output
value or the resulting seed: every operation reads only the seed field. -/
lemma step_seed_only (op : Op) (s : Nat) (b₁ b₂ : Bool) :
    (step op ⟨s, b₁⟩).1 = (step op ⟨s, b₂⟩).1
    ∧ (step op ⟨s, b₁⟩).2.seed = (step op ⟨s, b₂⟩).2.seed := by
  cases op <;> exact ⟨rfl, rfl⟩

lemma run_seed_only (ops : List Op) : ∀ r₁ r₂ : Random, r₁.seed = r₂.seed →
    (run ops r₁).1 = (run ops r₂).1
    ∧ (run ops r₁).2.seed = (run ops r₂).2.seed := by
  induction ops with
  | nil => exact fun r₁ r₂ h => ⟨rfl, h⟩
  | cons op ops ih =>
      intro r₁ r₂ h
      obtain ⟨s₁, b₁⟩ := r₁
      obtain ⟨s₂, b₂⟩ := r₂
      simp only at h
      subst h
      have hstep := step_seed_only op s₁ b₁ b₂
      have hrec := ih (step op ⟨s₁, b₁⟩).2 (step op ⟨s₁, b₂⟩).2 hstep.2
      simp only [run]
      exact ⟨by rw [hstep.1, hrec.1], hrec.2⟩

lemma run_append (xs ys : List Op) (r : Random) :
    run (xs ++ ys) r
      = ((run xs r).1 ++ (run ys (run xs r).2).1, (run ys (run xs r).2).2) := by
  induction xs generalizing r with
  | nil => simp [run]
  | cons op xs ih => simp [run, ih]

lemma xor_right_cancel (a b c : Nat) (h : a ^^^ c = b ^^^ c) : a = b := by
  rw [← Nat.xor_cancel_right c a, h, Nat.xor_cancel_right]

lemma xor_left_cancel (a x y : Nat) (h : a ^^^ x = a ^^^ y) : x = y := by
  rw [← Nat.xor_cancel_left a x, h, Nat.xor_cancel_left]

lemma combineSeed_seed_lt (r : Random) (v : Int) :
    (r.combineSeed v).seed < 2 ^ 64 := by
  have h1 : nextSeed r.seed < 2 ^ 64 := lt_trans (nextSeed_lt r.seed) (by norm_num)
  exact Nat.xor_lt_two_pow h1 (toU64_lt v)

/-! ### The claims -/

/-- C1: for every 64-bit seed value S and every fixed finite sequence of
generation/mutation calls, two independently constructed generators, each
constructed with seed S, produce identical output value sequences; nothing
besides the seed field (in particular not the isSystemRandom flag)
influences the outputs or the final seed. -/
theorem claim1_determinism (ops : List Op) (S : Int) (r₁ r₂ : Random)
    (h₁ : r₁.seed = (construct S).seed) (h₂ : r₂.seed = (construct S).seed) :
    (run ops r₁).1 = (run ops r₂).1
    ∧ (run ops r₁).2.seed = (run ops r₂).2.seed :=
  run_seed_only ops r₁ r₂ (h₁.trans h₂.symm)

/-- Witness for C1 at seed 42, a three-call sequence, and two states that
agree on the seed field but differ in the bookkeeping flag. -/
theorem claim1_determinism_witness :
    (run [Op.opNextInt, Op.opNextBool, Op.opNextInt64] (construct 42)).1
      = (run [Op.opNextInt, Op.opNextBool, Op.opNextInt64] (Random.mk (toU64 42) true)).1
    ∧ (run [Op.opNextInt, Op.opNextBool, Op.opNextInt64] (construct 42)).2.seed
      = (run [Op.opNextInt, Op.opNextBool, Op.opNextInt64] (Random.mk (toU64 42) true)).2.seed :=
  claim1_determinism [Op.opNextInt, Op.opNextBool, Op.opNextInt64] 42
    (construct 42) (Random.mk (toU64 42) true) rfl rfl

/-- C2: one call to nextInt performs exactly one transition
seed := (seed * 0x5DEECE66D + 0xB) mod 2 ^ 48 and returns the top 32 bits
of the transitioned 48-bit state as a signed 32-bit integer, and every
value of the full signed 32-bit range (negatives included) is reachable. -/
theorem claim2_nextInt_transition (r : Random) (v : Int)
    (h1 : -(2 ^ 31) ≤ v) (h2 : v < 2 ^ 31) :
    (r.nextInt).2.seed = (r.seed * 0x5DEECE66D + 0xB) % 2 ^ 48
    ∧ (r.nextInt).1 = toSigned32 ((r.nextInt).2.seed / 2 ^ 16)
    ∧ ∃ s, s < 2 ^ 64 ∧ ((Random.mk s false).nextInt).1 = v := by
  refine ⟨rfl, rfl, ?_⟩
  obtain ⟨s, hs64, hs⟩ := nextSeed_surjective (toU32 v * 2 ^ 16)
    (by have := toU32_lt v; omega)
  refine ⟨s, hs64, ?_⟩
  show toSigned32 (nextSeed s / 2 ^ 16) = v
  rw [hs, Nat.mul_div_cancel _ (by norm_num)]
  exact toSigned32_toU32 v h1 h2

/-- Witness for C2 at the zero seed and the negative target value -1. -/
theorem claim2_nextInt_transition_witness :
    ((construct 0).nextInt).2.seed = ((construct 0).seed * 0x5DEECE66D + 0xB) % 2 ^ 48
    ∧ ((construct 0).nextInt).1 = toSigned32 (((construct 0).nextInt).2.seed / 2 ^ 16)
    ∧ ∃ s, s < 2 ^ 64 ∧ ((Random.mk s false).nextInt).1 = -1 :=
  claim2_nextInt_transition (construct 0) (-1) (by norm_num) (by norm_num)

/-- C3: for every starting state and every maxValue > 0 (and any modelled
retry bound), nextInt (maxValue) returns a value in [0, maxValue). -/
theorem claim3_nextIntBounded_in_range (maxValue : Int) (fuel : Nat) (r : Random)
    (h : 0 < maxValue) :
    0 ≤ (r.nextIntBounded maxValue fuel).1
    ∧ (r.nextIntBounded maxValue fuel).1 < maxValue :=
  nextIntBounded_range maxValue fuel r h

/-- Witness for C3 at seed 42 and bound 10 (the scenario of the spec). -/
theorem claim3_nextIntBounded_in_range_witness :
    0 ≤ ((construct 42).nextIntBounded 10 0).1
    ∧ ((construct 42).nextIntBounded 10 0).1 < 10 :=
  claim3_nextIntBounded_in_range 10 0 (construct 42) (by norm_num)

/-- C4: for every starting state, nextFloat and nextDouble return a value
in [0, 1): never negative and never equal to (or above) 1.  The values are
the exact rationals of the modelled mantissa-range division. -/
theorem claim4_float_double_in_unit (r : Random) :
    0 ≤ (r.nextFloat).1 ∧ (r.nextFloat).1 < 1
    ∧ 0 ≤ (r.nextDouble).1 ∧ (r.nextDouble).1 < 1 := by
  unfold Random.nextFloat Random.nextDouble
  dsimp only
  have hf : toU32 ((r.nextInt).1) / 2 ^ 8 < 2 ^ 24 := by
    have := toU32_lt ((r.nextInt).1); omega
  have hd : toU32 ((r.nextInt).1) / 2 ^ 6 * 2 ^ 27 + toU32 (((r.nextInt).2.nextInt).1) / 2 ^ 5
      < 2 ^ 53 := by
    have h1 := toU32_lt ((r.nextInt).1)
    have h2 := toU32_lt (((r.nextInt).2.nextInt).1)
    have h3 : toU32 ((r.nextInt).1) / 2 ^ 6 < 2 ^ 26 := by omega
    have h4 : toU32 (((r.nextInt).2.nextInt).1) / 2 ^ 5 < 2 ^ 27 := by omega
    have h5 : toU32 ((r.nextInt).1) / 2 ^ 6 * 2 ^ 27 ≤ (2 ^ 26 - 1) * 2 ^ 27 :=
      Nat.mul_le_mul_right _ (by omega)
    omega
  refine ⟨by positivity, ?_, by positivity, ?_⟩
  · rw [div_lt_one (by norm_num)]
    exact_mod_cast hf
  · rw [div_lt_one (by norm_num)]
    exact_mod_cast hd

/-- C5: nextInt over a range [lo, hi) with hi > lo produces the same value
and the same final state as lo + nextInt (hi - lo) from the same state. -/
theorem claim5_range_delegates (lo hi : Int) (fuel : Nat) (r : Random)
    (h : lo < hi) :
    (r.nextIntRange lo hi fuel).1 = lo + (r.nextIntBounded (hi - lo) fuel).1
    ∧ (r.nextIntRange lo hi fuel).2 = (r.nextIntBounded (hi - lo) fuel).2 :=
  ⟨rfl, rfl⟩

/-- Witness for C5 at the range [2, 5) from seed 1. -/
theorem claim5_range_delegates_witness :
    ((construct 1).nextIntRange 2 5 0).1 = 2 + ((construct 1).nextIntBounded (5 - 2) 0).1
    ∧ ((construct 1).nextIntRange 2 5 0).2 = ((construct 1).nextIntBounded (5 - 2) 0).2 :=
  claim5_range_delegates 2 5 0 (construct 1) (by norm_num)

/-- C6: combineSeed is not setSeed: the resulting seed is the prior state
advanced one transition step XORed with the new value, so it depends on
both inputs, and whenever the transitioned prior seed is nonzero (the only
degenerate case) the seed observed via getSeed after combineSeed differs
from the one after setSeed. -/
theorem claim6_combineSeed_not_setSeed (r r₂ : Random) (v w : Int)
    (hdeg : nextSeed r.seed ≠ 0)
    (hs : nextSeed r₂.seed ≠ nextSeed r.seed)
    (hw : toU64 w ≠ toU64 v) :
    (r.combineSeed v).seed = nextSeed r.seed ^^^ toU64 v
    ∧ (r.combineSeed v).getSeed ≠ (r.setSeed v).getSeed
    ∧ (r₂.combineSeed v).seed ≠ (r.combineSeed v).seed
    ∧ (r.combineSeed w).seed ≠ (r.combineSeed v).seed := by
  refine ⟨rfl, ?_, ?_, ?_⟩
  · intro h
    have hlt := combineSeed_seed_lt r v
    have heq := toSigned64_inj _ _ hlt (toU64_lt v) h
    have : nextSeed r.seed ^^^ toU64 v = 0 ^^^ toU64 v := by
      rw [Nat.zero_xor]; exact heq
    exact hdeg (xor_right_cancel _ _ _ this)
  · intro h
    exact hs (xor_right_cancel _ _ _ h)
  · intro h
    exact hw (xor_left_cancel _ _ _ h)

/-- Witness for C6 at seeds 3 and 4 and values 7 and 8. -/
theorem claim6_combineSeed_not_setSeed_witness :
    ((construct 3).combineSeed 7).seed = nextSeed (construct 3).seed ^^^ toU64 7
    ∧ ((construct 3).combineSeed 7).getSeed ≠ ((construct 3).setSeed 7).getSeed
    ∧ ((construct 4).combineSeed 7).seed ≠ ((construct 3).combineSeed 7).seed
    ∧ ((construct 3).combineSeed 8).seed ≠ ((construct 3).combineSeed 7).seed :=
  claim6_combineSeed_not_setSeed (construct 3) (construct 4) 7 8
    (by decide) (by decide) (by decide)

/-- C7: nextInt64 consumes exactly two state transitions (its final state
is the state after two nextInt calls) and returns the signed 64-bit value
packing the first 32-bit draw as the high word and the second as the low
word. -/
theorem claim7_nextInt64_packing (r : Random) :
    (r.nextInt64).2 = ((r.nextInt).2.nextInt).2
    ∧ (r.nextInt64).2.seed = nextSeed (nextSeed r.seed)
    ∧ (r.nextInt64).1
      = toSigned64 (toU32 ((r.nextInt).1) * 2 ^ 32 + toU32 (((r.nextInt).2.nextInt).1)) := by
  have h1 : nextSeed r.seed / 2 ^ 16 < 2 ^ 32 := by
    have := nextSeed_lt r.seed; omega
  have h2 : nextSeed (nextSeed r.seed) / 2 ^ 16 < 2 ^ 32 := by
    have := nextSeed_lt (nextSeed r.seed); omega
  refine ⟨rfl, rfl, ?_⟩
  show toSigned64 (nextSeed r.seed / 2 ^ 16 * 2 ^ 32 + nextSeed (nextSeed r.seed) / 2 ^ 16)
      = toSigned64 (toU32 (toSigned32 (nextSeed r.seed / 2 ^ 16)) * 2 ^ 32
          + toU32 (toSigned32 (nextSeed (nextSeed r.seed) / 2 ^ 16)))
  rw [toU32_toSigned32 _ h1, toU32_toSigned32 _ h2]

/-- C8: nextBool consumes exactly one 32-bit draw (its final state is the
state after one nextInt call) and returns true exactly when that draw is
odd. -/
theorem claim8_nextBool_parity (r : Random) :
    (r.nextBool).2 = (r.nextInt).2
    ∧ ((r.nextBool).1 = true ↔ toU32 ((r.nextInt).1) % 2 = 1) := by
  refine ⟨rfl, ?_⟩
  show (toU32 ((r.nextInt).1) % 2 == 1) = true ↔ _
  simp

/-- C9: fillBitsRandomly on a BigInteger (modelled as its magnitude)
changes only bits with index in [startBit, startBit + numBits): every bit
outside that range keeps its prior value. -/
theorem claim9_fillBits_frame (r : Random) (b startBit numBits i : Nat)
    (h : i < startBit ∨ startBit + numBits ≤ i) :
    ((r.fillBitsRandomly b startBit numBits).1).testBit i = b.testBit i := by
  unfold Random.fillBitsRandomly
  dsimp only
  exact fillBitsAux_frame b startBit numBits r.seed i h

/-- Witness for C9: filling bits [3, 43) of the magnitude 5 from seed 7
leaves bit 2 (and bit 50) unchanged. -/
theorem claim9_fillBits_frame_witness :
    (((construct 7).fillBitsRandomly 5 3 40).1).testBit 2 = Nat.testBit 5 2
    ∧ (((construct 7).fillBitsRandomly 5 3 40).1).testBit 50 = Nat.testBit 5 50 :=
  ⟨claim9_fillBits_frame (construct 7) 5 3 40 2 (Or.inl (by norm_num)),
   claim9_fillBits_frame (construct 7) 5 3 40 50 (Or.inr (by norm_num))⟩

/-- C10: getSeed is observationally pure: it returns the seed field and
leaves the state unchanged, so a getSeed call inserted anywhere into a
sequence of operations adds only its own output (the seed at that point)
and changes neither the other outputs nor the final state. -/
theorem claim10_getSeed_pure (xs ys : List Op) (r : Random) :
    (run (xs ++ Op.opGetSeed :: ys) r).2 = (run (xs ++ ys) r).2
    ∧ (run (xs ++ Op.opGetSeed :: ys) r).1
      = (run xs r).1 ++ Out.intVal ((run xs r).2.getSeed) :: (run ys (run xs r).2).1
    ∧ (run (xs ++ ys) r).1 = (run xs r).1 ++ (run ys (run xs r).2).1 := by
  have ha := run_append xs (Op.opGetSeed :: ys) r
  have hb := run_append xs ys r
  refine ⟨?_, ?_, ?_⟩
  · rw [ha, hb]; rfl
  · rw [ha]; rfl
  · rw [hb]

end Juce
